import Mathlib

/-!
Verification development for the `png2stencil` utility.

The program converts a binary raster mask into a list of non-overlapping
circular tool positions.  The core is embedded here over exact rationals:
the Go code's `float64` arithmetic is modelled by `ℚ` (every concrete
constant used in the theorems below is exactly representable in binary
floating point, and every comparison in the concrete runs has slack far
larger than any rounding error, so the exact-rational model agrees with
the floating-point execution on those runs).  Go's `int(f)` conversion
(truncation toward zero) is modelled by `goInt`.  Byte images are lists of
naturals; an out-of-range read is modelled by the sentinel value `256`,
which no byte can equal (the Go program would panic there instead; the
read-index list `checkCircleReads` is used to reason about that case).
-/

set_option maxRecDepth 8000

attribute [local semireducible] Rat.add Rat.mul Rat.inv Rat.sub

namespace Png2Stencil

/-- A placement point, the source's `Point` struct (physical units, mm). -/
abbrev Pt := ℚ × ℚ

/-- The source's `image.Gray` base image: `w`/`h` are `Bounds().Dx()` and
`Bounds().Dy()`, `pix` is the `Pix` byte slice and the stride equals `w`
(the image is always created with `image.NewGray(image.Rect(0,0,w,h))`). -/
structure Grid where
  w : ℕ
  h : ℕ
  pix : List ℕ
  deriving DecidableEq, Repr

/-- `image.Rectangle` as used by `floodFill`: `Max` is the largest pixel
coordinate seen (inclusive), as maintained by the min/max updates. -/
structure Rect where
  minX : ℤ
  minY : ℤ
  maxX : ℤ
  maxY : ℤ
  deriving DecidableEq, Repr

/-- Go's `int(f)` conversion: truncation toward zero. -/
def goInt (q : ℚ) : ℤ := if q < 0 then ⌈q⌉ else ⌊q⌋

/-- The integers `a, a+1, ..., b` (empty when `b < a`): the index range of a
Go loop `for c := a; c <= b; c++`. -/
def intRange (a b : ℤ) : List ℤ :=
  (List.range (b + 1 - a).toNat).map (fun (k : ℕ) => a + (k : ℤ))

/-- Number of iterations of a Go loop `for i := 0; ; i++ { c := start + i*step;
if c >= bound { break } ... }` when `step > 0`: the count of naturals `i` with
`start + i*step < bound`. -/
def countLT (start step bound : ℚ) : ℕ := (⌈(bound - start) / step⌉).toNat

/-- Read of `base.Pix[idx]`.  In range this is the stored byte; out of range
the Go program panics, modelled by the impossible byte value `256`. -/
def pixAt (g : Grid) (idx : ℤ) : ℕ :=
  if 0 ≤ idx then g.pix.getD idx.toNat 256 else 256

/-- The source's `inside(cx, cy, r, x, y)`: is `(x,y)` within distance `r`
of `(cx,cy)`. -/
def inside (cx cy r x y : ℚ) : Bool :=
  decide ((x - cx) * (x - cx) + (y - cy) * (y - cy) ≤ r * r)

/-- The source's constant `1.73205080757` (its comment calls it `sqrt(3)`). -/
def sqrt3c : ℚ := 173205080757 / 10 ^ 11

/-- The source's `checkCircle(base, level, pxSize, x, y, r)`: rejects circles
whose bounding square leaves the physical image bounds, then scans the cell
rectangle `x0..x1 × y0..y1` and requires every cell whose sample point (the
bounding-square corner `(x-r, y-r)` offset by cell steps) lies inside the
circle to carry `level`. -/
def checkCircle (g : Grid) (level : ℕ) (px x y r : ℚ) : Bool :=
  let width : ℚ := g.w * px
  let height : ℚ := g.h * px
  if x < r ∨ width - r < x ∨ y < r ∨ height - r < y then false
  else
    let x0 := goInt ((x - r) / px)
    let y0 := goInt ((y - r) / px)
    let x1 := goInt ((x + r) / px)
    let y1 := goInt ((y + r) / px)
    (intRange y0 y1).all fun (cy : ℤ) =>
      (intRange x0 x1).all fun (cx : ℤ) =>
        !(inside x y r ((x - r) + ((cx - x0 : ℤ) : ℚ) * px) ((y - r) + ((cy - y0 : ℤ) : ℚ) * px))
          || decide (pixAt g (cy * (g.w : ℤ) + cx) = level)

/-- The pixel indices `i0+cx` that `checkCircle`'s scan loop actually reads
(in scan order): the cells of the rectangle whose sample point passes the
`inside` test.  Empty when the initial bounds test rejects. -/
def checkCircleReads (g : Grid) (px x y r : ℚ) : List ℤ :=
  let width : ℚ := g.w * px
  let height : ℚ := g.h * px
  if x < r ∨ width - r < x ∨ y < r ∨ height - r < y then []
  else
    let x0 := goInt ((x - r) / px)
    let y0 := goInt ((y - r) / px)
    let x1 := goInt ((x + r) / px)
    let y1 := goInt ((y + r) / px)
    (intRange y0 y1).flatMap fun (cy : ℤ) =>
      (intRange x0 x1).filterMap fun (cx : ℤ) =>
        if inside x y r ((x - r) + ((cx - x0 : ℤ) : ℚ) * px) ((y - r) + ((cy - y0 : ℤ) : ℚ) * px)
        then some (cy * (g.w : ℤ) + cx) else none

/-- The source's `fillTriangle(base, level, bbox, ox, oy)` (component
variant), with the globals `*toolDiameter` and `basePxSize` passed as `d`
and `px`.  Row spacing `dy = d/2`, column spacing `dx = dy * 1.73205080757`;
candidates outside the bounding box grown by one source cell are skipped, as
is every `(i, j)` with `i + j` odd; the rest are filtered by `checkCircle`.
The unbounded Go `for` loops break at `cx ≥ width` / `cy ≥ height`, which for
positive spacing is the `countLT` iteration count. -/
def fillTriangle (g : Grid) (level : ℕ) (bbox : Rect) (d px ox oy : ℚ) : List Pt :=
  let width : ℚ := g.w * px
  let height : ℚ := g.h * px
  let dy := d / 2
  let dx := dy * sqrt3c
  (List.range (countLT ox dx width)).flatMap fun (i : ℕ) =>
    let cx := ox + (i : ℚ) * dx
    if cx < (bbox.minX - 1) * px ∨ (bbox.maxX + 1) * px ≤ cx then []
    else
      (List.range (countLT oy dy height)).flatMap fun (j : ℕ) =>
        let cy := oy + (j : ℚ) * dy
        if cy < (bbox.minY - 1) * px ∨ (bbox.maxY + 1) * px ≤ cy then []
        else if (i + j) % 2 = 1 then []
        else if checkCircle g level px cx cy (d / 2) then [(cx, cy)] else []

/-- The source's `fillQuad(base, level, bbox, ox, oy)` (component variant):
square lattice with both spacings equal to the tool diameter `d`. -/
def fillQuad (g : Grid) (level : ℕ) (bbox : Rect) (d px ox oy : ℚ) : List Pt :=
  let width : ℚ := g.w * px
  let height : ℚ := g.h * px
  (List.range (countLT ox d width)).flatMap fun (i : ℕ) =>
    let cx := ox + (i : ℚ) * d
    if cx < (bbox.minX - 1) * px ∨ (bbox.maxX + 1) * px ≤ cx then []
    else
      (List.range (countLT oy d height)).flatMap fun (j : ℕ) =>
        let cy := oy + (j : ℚ) * d
        if cy < (bbox.minY - 1) * px ∨ (bbox.maxY + 1) * px ≤ cy then []
        else if checkCircle g level px cx cy (d / 2) then [(cx, cy)] else []

/-- Working state of the source's `floodFill`: the (mutated) pixel slice,
the list `pix` of indices newly marked in the current round, and the
running bounding box. -/
structure FloodState where
  pix : List ℕ
  frontier : List ℕ
  bbox : Rect
  deriving DecidableEq, Repr

/-- The four independent min/max updates of `bbox` in `floodFill`'s `try`. -/
def extendRect (r : Rect) (x y : ℤ) : Rect :=
  ⟨min r.minX x, min r.minY y, max r.maxX x, max r.maxY y⟩

/-- The source's `try(j)` closure inside `floodFill`: a pixel that is neither
background (0) nor claimed (254) nor already at `level` is set to `level`,
queued, and extends the bounding box. -/
def floodTry (w : ℕ) (level : ℕ) (st : FloodState) (j : ℕ) : FloodState :=
  let v := st.pix.getD j 0
  if v ≠ 0 ∧ v ≠ 254 ∧ v ≠ level then
    { pix := st.pix.set j level
      frontier := st.frontier ++ [j]
      bbox := extendRect st.bbox (j % w : ℕ) (j / w : ℕ) }
  else st

/-- The body of `floodFill`'s `for _, i := range cur` loop: try the left,
right, up and down neighbours of `i`, guarded exactly as in the source
(`i % Stride ≠ 0`, `i % Stride ≠ Stride-1`, `i / Stride > 0`,
`i / Stride < Dy - 1`). -/
def floodNeighbors (w h : ℕ) (level : ℕ) (st : FloodState) (i : ℕ) : FloodState :=
  let st := if i % w ≠ 0 then floodTry w level st (i - 1) else st
  let st := if i % w ≠ w - 1 then floodTry w level st (i + 1) else st
  let st := if i / w > 0 then floodTry w level st (i - w) else st
  let st := if i / w < h - 1 then floodTry w level st (i + w) else st
  st

/-- One round of `floodFill`'s `for len(cur) > 0` loop: process every index
of the current frontier, collecting the next frontier from empty. -/
def floodRound (w h level : ℕ) (pix : List ℕ) (cur : List ℕ) (bbox : Rect) : FloodState :=
  cur.foldl (fun st i => floodNeighbors w h level st i) ⟨pix, [], bbox⟩

/-- The `for len(cur) > 0` loop of `floodFill`.  `fuel` only bounds the
number of rounds for termination: every round with a nonempty frontier has
marked at least one new pixel in the previous round, so `pix.length + 1`
rounds always suffice and the fuelled function equals the Go loop. -/
def floodLoop (w h level : ℕ) : ℕ → List ℕ → List ℕ → Rect → List ℕ × Rect
  | 0, pix, _, bbox => (pix, bbox)
  | fuel + 1, pix, cur, bbox =>
    if cur.isEmpty then (pix, bbox)
    else
      let st := floodRound w h level pix cur bbox
      floodLoop w h level fuel st.pix st.frontier st.bbox

/-- The source's `floodFill(base, level, x, y)`: starts from the single
index `y*Stride + x` and the degenerate rectangle at `(x, y)`, and returns
the mutated pixels together with the bounding box.  Note that the starting
pixel itself is only written if it is reached again as some neighbour's
neighbour. -/
def floodFill (w h : ℕ) (pix : List ℕ) (level : ℕ) (x y : ℕ) : List ℕ × Rect :=
  floodLoop w h level (pix.length + 1) pix [y * w + x] ⟨x, y, x, y⟩

/-- The result of `main`'s scan loop: the final pixel slice, the bounding
boxes of the components discovered (in discovery order), and the aggregated
placement list `res`. -/
structure ScanState where
  pix : List ℕ
  comps : List Rect
  res : List Pt
  deriving DecidableEq, Repr

/-- `main`'s `try` closure applied to each candidate list in order: replace
the current best only when the new list is strictly longer. -/
def bestGo : List Pt → List (List Pt) → List Pt
  | b, [] => b
  | b, c :: ts => if b.length < c.length then bestGo c ts else bestGo b ts

/-- `bestOf` is `main`'s `try`/`best` pattern over a whole trial sequence,
starting from the empty (`nil`) best. -/
def bestOf (ts : List (List Pt)) : List Pt := bestGo [] ts

/-- The `shiftN × shiftN` offset double loop of the component variant's
`main`, with the offset step `shift = toolDiameter/shiftN` and, at each
offset, first `fillTriangle` then `fillQuad` (both against marker level 1).
The source fixes `shiftN = 32`; it is kept as the parameter `N` so that the
search-resolution claims can be stated. -/
def trialsN (g : Grid) (bbox : Rect) (d px : ℚ) (N : ℕ) : List (List Pt) :=
  (List.range N).flatMap fun (i : ℕ) =>
    (List.range N).flatMap fun (j : ℕ) =>
      [fillTriangle g 1 bbox d px ((i : ℚ) * (d / N)) ((j : ℚ) * (d / N)),
       fillQuad g 1 bbox d px ((i : ℚ) * (d / N)) ((j : ℚ) * (d / N))]

/-- The per-component search of the source's `main`: best list over the
`32 × 32` offsets and both lattice families. -/
def searchBest (g : Grid) (bbox : Rect) (d px : ℚ) : List Pt :=
  bestOf (trialsN g bbox d px 32)

/-- The body of `main`'s scan over `(curX, curY)`: skip unless the pixel is
255 (unclaimed foreground); otherwise flood-fill with marker 1, search the
component, append its best placements to `res`, and flood-fill with 254. -/
def scanCell (w h : ℕ) (d px : ℚ) (st : ScanState) (curX curY : ℕ) : ScanState :=
  if st.pix.getD (curY * w + curX) 0 ≠ 255 then st
  else
    let f1 := floodFill w h st.pix 1 curX curY
    let best := searchBest ⟨w, h, f1.1⟩ f1.2 d px
    let f2 := floodFill w h f1.1 254 curX curY
    ⟨f2.1, st.comps ++ [f1.2], st.res ++ best⟩

/-- `main`'s component scan loop (component variant): `curX` outer over the
grid width, `curY` inner over the height. -/
def mainScan (g : Grid) (d px : ℚ) : ScanState :=
  (List.range g.w).foldl
    (fun st curX =>
      (List.range g.h).foldl (fun st curY => scanCell g.w g.h d px st curX curY) st)
    ⟨g.pix, [], []⟩

/-- A color as returned by Go's `color.Color.RGBA()`: alpha-premultiplied
16-bit `r`, `g`, `b`, `a` channels. -/
abbrev Color := ℕ × ℕ × ℕ × ℕ

/-- The comparison `bkr == cr && bkg == cg && bkb == cb` of `main`: exact
equality of the three color channels, ignoring alpha. -/
def rgbEq (c bk : Color) : Bool :=
  c.1 == bk.1 && c.2.1 == bk.2.1 && c.2.2.1 == bk.2.2.1

/-- `color.White.RGBA()` and `color.Black.RGBA()`. -/
def whiteC : Color := (65535, 65535, 65535, 65535)

/-- `color.Black.RGBA()`. -/
def blackC : Color := (0, 0, 0, 65535)

/-- A decoded source image: bounds origin `(minX, minY)`, dimensions
`dx × dy`, and the color of each pixel. -/
structure Img where
  minX : ℤ
  minY : ℤ
  dx : ℕ
  dy : ℕ
  colorAt : ℤ → ℤ → Color

/-- The rasterizer of `main`: an `n`-times supersampled gray image of
dimensions `dx*n × dy*n` whose pixel `i` is 0 exactly when the source color
at `(x0 + (i % stride)/n, y0 + (i / stride)/n)` matches the background in
all of `r`, `g`, `b`, and 255 otherwise. -/
def makeBase (img : Img) (bk : Color) (n : ℕ) : Grid :=
  let s := img.dx * n
  { w := s
    h := img.dy * n
    pix := (List.range (s * (img.dy * n))).map fun (i : ℕ) =>
      if rgbEq (img.colorAt (img.minX + ((i % s) / n : ℕ)) (img.minY + ((i / s) / n : ℕ))) bk
      then 0 else 255 }

/-- Squared Euclidean distance between two placements.  Over nonnegative
quantities, `distance p q ≥ d` is equivalent to `sqDist p q ≥ d * d`. -/
def sqDist (p q : Pt) : ℚ :=
  (p.1 - q.1) * (p.1 - q.1) + (p.2 - q.2) * (p.2 - q.2)

/-- The offsets swept by the component variant's `main`
(`shift = toolDiameter/32`, `ox = i*shift`, `oy = j*shift`, row-major). -/
def offsetsComponent (d : ℚ) : List Pt :=
  (List.range 32).flatMap fun (i : ℕ) =>
    (List.range 32).map fun (j : ℕ) => ((i : ℚ) * (d / 32), (j : ℚ) * (d / 32))

/-- The offsets swept by the whole-image variant's `main` (`shiftN = 4`,
`ox = float64(i) * toolDiameter / 2`). -/
def offsetsWhole (d : ℚ) : List Pt :=
  (List.range 4).flatMap fun (i : ℕ) =>
    (List.range 4).map fun (j : ℕ) => ((i : ℚ) * d / 2, (j : ℚ) * d / 2)

/-- Modelled from the spec: the offset set §4.5 prescribes,
`(ox, oy) = (i·d/shiftN, j·d/shiftN)` for `i, j ∈ [0, shiftN)`. -/
def offsetsSpec (N : ℕ) (d : ℚ) : List Pt :=
  (List.range N).flatMap fun (i : ℕ) =>
    (List.range N).map fun (j : ℕ) => ((i : ℚ) * d / N, (j : ℚ) * d / N)

/-- Modelled from the spec (§4.4 / claim C2 wording): reject if the bounding
square crosses the image bounds, otherwise walk every grid cell whose CENTER
lies within the circle's bounding square and at distance ≤ r from the
center, and require each such cell to carry `label`.  This is the reading
the claim gives of `checkCircle`; the code instead samples the point
`(x-r, y-r) + ((cx-x0)·px, (cy-y0)·px)` of each cell of the rectangle
`x0..x1 × y0..y1`. -/
def checkCircleSpec (g : Grid) (level : ℕ) (px x y r : ℚ) : Bool :=
  let width : ℚ := g.w * px
  let height : ℚ := g.h * px
  if x < r ∨ width - r < x ∨ y < r ∨ height - r < y then false
  else
    (List.range g.h).all fun (cy : ℕ) =>
      (List.range g.w).all fun (cx : ℕ) =>
        let ccx : ℚ := ((cx : ℚ) + 1 / 2) * px
        let ccy : ℚ := ((cy : ℚ) + 1 / 2) * px
        !(decide (x - r ≤ ccx ∧ ccx ≤ x + r ∧ y - r ≤ ccy ∧ ccy ≤ y + r)
            && inside x y r ccx ccy)
          || decide (g.pix.getD (cy * g.w + cx) 0 = level)

/-! ### Helper lemmas -/

theorem mem_intRange {lo hi a : ℤ} : a ∈ intRange lo hi ↔ lo ≤ a ∧ a ≤ hi := by
  unfold intRange
  simp only [List.mem_map, List.mem_range]
  constructor
  · rintro ⟨k, hk, rfl⟩
    omega
  · rintro ⟨h1, h2⟩
    exact ⟨(a - lo).toNat, by omega, by omega⟩

theorem lt_countLT {start step bound : ℚ} (hstep : 0 < step) (i : ℕ) :
    i < countLT start step bound ↔ start + i * step < bound := by
  unfold countLT
  rw [Int.lt_toNat, Int.lt_ceil, lt_div_iff₀ hstep]
  push_cast
  constructor <;> intro h <;> linarith

theorem mem_ite_nil {α : Type} {c : Prop} [Decidable c] {l : List α} {a : α} :
    (a ∈ if c then ([] : List α) else l) ↔ ¬c ∧ a ∈ l := by
  split_ifs with h <;> simp [h]

theorem mem_ite_singleton {α : Type} {c : Prop} [Decidable c] {b a : α} :
    (a ∈ if c then [b] else ([] : List α)) ↔ c ∧ a = b := by
  split_ifs with h <;> simp [h]

/-- Membership characterization of `fillTriangle`: exactly the points
`(ox + i·(d/2·√3ᶜ), oy + j·(d/2))` with `i, j ≥ 0`, the point inside the
image extent and the grown bounding-box window, `i + j` even, and the
circle-fit check passing. -/
theorem mem_fillTriangle {g : Grid} {level : ℕ} {bbox : Rect} {d px ox oy : ℚ}
    (hd : 0 < d) {p : Pt} :
    p ∈ fillTriangle g level bbox d px ox oy ↔
      ∃ i j : ℕ,
        ox + i * (d / 2 * sqrt3c) < g.w * px ∧
        ¬(ox + i * (d / 2 * sqrt3c) < (bbox.minX - 1) * px ∨
            (bbox.maxX + 1) * px ≤ ox + i * (d / 2 * sqrt3c)) ∧
        oy + j * (d / 2) < g.h * px ∧
        ¬(oy + j * (d / 2) < (bbox.minY - 1) * px ∨
            (bbox.maxY + 1) * px ≤ oy + j * (d / 2)) ∧
        (i + j) % 2 ≠ 1 ∧
        checkCircle g level px (ox + i * (d / 2 * sqrt3c)) (oy + j * (d / 2)) (d / 2) = true ∧
        p = (ox + i * (d / 2 * sqrt3c), oy + j * (d / 2)) := by
  have hdx : 0 < d / 2 * sqrt3c := by
    have : (0 : ℚ) < sqrt3c := by norm_num [sqrt3c]
    positivity
  have hdy : 0 < d / 2 := by positivity
  unfold fillTriangle
  simp only [List.mem_flatMap, List.mem_range, mem_ite_nil, mem_ite_singleton,
    lt_countLT hdx, lt_countLT hdy]
  constructor
  · rintro ⟨i, hi, hwx, j, hj, hwy, hpar, hchk, rfl⟩
    exact ⟨i, j, hi, hwx, hj, hwy, hpar, hchk, rfl⟩
  · rintro ⟨i, j, hi, hwx, hj, hwy, hpar, hchk, rfl⟩
    exact ⟨i, hi, hwx, j, hj, hwy, hpar, hchk, rfl⟩

/-- Membership characterization of `fillQuad`: the square lattice with both
spacings `d`, same window and circle-fit filters, no parity skip. -/
theorem mem_fillQuad {g : Grid} {level : ℕ} {bbox : Rect} {d px ox oy : ℚ}
    (hd : 0 < d) {p : Pt} :
    p ∈ fillQuad g level bbox d px ox oy ↔
      ∃ i j : ℕ,
        ox + i * d < g.w * px ∧
        ¬(ox + i * d < (bbox.minX - 1) * px ∨ (bbox.maxX + 1) * px ≤ ox + i * d) ∧
        oy + j * d < g.h * px ∧
        ¬(oy + j * d < (bbox.minY - 1) * px ∨ (bbox.maxY + 1) * px ≤ oy + j * d) ∧
        checkCircle g level px (ox + i * d) (oy + j * d) (d / 2) = true ∧
        p = (ox + i * d, oy + j * d) := by
  unfold fillQuad
  simp only [List.mem_flatMap, List.mem_range, mem_ite_nil, mem_ite_singleton,
    lt_countLT hd]
  constructor
  · rintro ⟨i, hi, hwx, j, hj, hwy, hchk, rfl⟩
    exact ⟨i, j, hi, hwx, hj, hwy, hchk, rfl⟩
  · rintro ⟨i, j, hi, hwx, hj, hwy, hchk, rfl⟩
    exact ⟨i, hi, hwx, j, hj, hwy, hchk, rfl⟩

/-- Membership characterization of the trial sequence: each trial is a
`fillTriangle` or `fillQuad` run at one of the `N × N` offsets
`(i·(d/N), j·(d/N))`. -/
theorem mem_trialsN {g : Grid} {bbox : Rect} {d px : ℚ} {N : ℕ} {t : List Pt} :
    t ∈ trialsN g bbox d px N ↔
      ∃ i j : ℕ, i < N ∧ j < N ∧
        (t = fillTriangle g 1 bbox d px (i * (d / N)) (j * (d / N)) ∨
         t = fillQuad g 1 bbox d px (i * (d / N)) (j * (d / N))) := by
  unfold trialsN
  simp only [List.mem_flatMap, List.mem_range, List.mem_cons, List.mem_singleton,
    List.not_mem_nil, or_false]
  constructor
  · rintro ⟨i, hi, j, hj, h⟩
    exact ⟨i, j, hi, hj, h⟩
  · rintro ⟨i, j, hi, hj, h⟩
    exact ⟨i, hi, j, hj, h⟩

theorem le_bestGo (b : List Pt) (ts : List (List Pt)) :
    b.length ≤ (bestGo b ts).length := by
  induction ts generalizing b with
  | nil => exact le_rfl
  | cons c ts ih =>
    by_cases h : b.length < c.length
    · simpa [bestGo, h] using le_trans (le_of_lt h) (ih c)
    · simpa [bestGo, h] using ih b

theorem length_le_bestGo {t : List Pt} {ts : List (List Pt)} (b : List Pt)
    (ht : t ∈ ts) : t.length ≤ (bestGo b ts).length := by
  induction ts generalizing b with
  | nil => cases ht
  | cons c ts ih =>
    rcases List.mem_cons.mp ht with rfl | hts
    · by_cases h : b.length < t.length
      · simpa [bestGo, h] using le_bestGo t ts
      · simpa [bestGo, h] using le_trans (le_of_not_lt h) (le_bestGo b ts)
    · by_cases h : b.length < c.length
      · simpa [bestGo, h] using ih c hts
      · simpa [bestGo, h] using ih b hts

theorem bestGo_mem (b : List Pt) (ts : List (List Pt)) :
    bestGo b ts = b ∨ bestGo b ts ∈ ts := by
  induction ts generalizing b with
  | nil => exact Or.inl rfl
  | cons c ts ih =>
    by_cases h : b.length < c.length
    · rcases ih c with heq | hmem
      · right; rw [bestGo, if_pos h, heq]; exact List.mem_cons_self c ts
      · right; rw [bestGo, if_pos h]; exact List.mem_cons_of_mem c hmem
    · rcases ih b with heq | hmem
      · left; rw [bestGo, if_neg h, heq]
      · right; rw [bestGo, if_neg h]; exact List.mem_cons_of_mem c hmem

/-- Full characterization of `main`'s keep-best fold: either no candidate
beats the initial best and it is returned, or the result is the FIRST
candidate of maximal length, every earlier candidate being strictly
shorter and every candidate at most as long. -/
theorem bestGo_spec (ts : List (List Pt)) (b : List Pt) :
    (bestGo b ts = b ∧ ∀ t ∈ ts, t.length ≤ b.length) ∨
    (∃ k, ∃ hk : k < ts.length,
      bestGo b ts = ts.get ⟨k, hk⟩ ∧
      b.length < (ts.get ⟨k, hk⟩).length ∧
      (∀ m, ∀ hm : m < ts.length, m < k →
        (ts.get ⟨m, hm⟩).length < (ts.get ⟨k, hk⟩).length) ∧
      (∀ t ∈ ts, t.length ≤ (ts.get ⟨k, hk⟩).length)) := by
  induction ts generalizing b with
  | nil => exact Or.inl ⟨rfl, by simp⟩
  | cons c ts ih =>
    by_cases h : b.length < c.length
    · rcases ih c with ⟨heq, hall⟩ | ⟨k, hk, heq, hlt, hbefore, hallk⟩
      · right
        refine ⟨0, by simp, ?_, ?_, ?_, ?_⟩
        · rw [bestGo, if_pos h, heq]; rfl
        · simpa using h
        · intro m hm hmk; omega
        · intro t ht
          rcases List.mem_cons.mp ht with rfl | hts
          · exact le_rfl
          · exact hall t hts
      · right
        refine ⟨k + 1, by simpa using Nat.succ_lt_succ hk, ?_, ?_, ?_, ?_⟩
        · rw [bestGo, if_pos h, heq]; rfl
        · exact lt_trans h hlt
        · intro m hm hmk
          match m, hm with
          | 0, _ => exact hlt
          | m + 1, hm =>
            exact hbefore m (Nat.lt_of_succ_lt_succ hm) (Nat.lt_of_succ_lt_succ hmk)
        · intro t ht
          rcases List.mem_cons.mp ht with rfl | hts
          · exact le_of_lt hlt
          · exact hallk t hts
    · rcases ih b with ⟨heq, hall⟩ | ⟨k, hk, heq, hlt, hbefore, hallk⟩
      · left
        refine ⟨by rw [bestGo, if_neg h, heq], ?_⟩
        intro t ht
        rcases List.mem_cons.mp ht with rfl | hts
        · exact le_of_not_lt h
        · exact hall t hts
      · right
        refine ⟨k + 1, by simpa using Nat.succ_lt_succ hk, ?_, ?_, ?_, ?_⟩
        · rw [bestGo, if_neg h, heq]; rfl
        · exact hlt
        · intro m hm hmk
          match m, hm with
          | 0, _ => exact lt_of_le_of_lt (le_of_not_lt h) hlt
          | m + 1, hm =>
            exact hbefore m (Nat.lt_of_succ_lt_succ hm) (Nat.lt_of_succ_lt_succ hmk)
        · intro t ht
          rcases List.mem_cons.mp ht with rfl | hts
          · exact le_trans (le_of_not_lt h) (le_of_lt hlt)
          · exact hallk t hts

theorem one_le_sq_int {a : ℤ} (h : a ≠ 0) : 1 ≤ a ^ 2 := by
  have h2 : 0 < a ^ 2 := by positivity
  omega

/-- Arithmetic core of lattice disjointness: a nonzero integer vector with
even coordinate sum satisfies `3a² + b² ≥ 4`. -/
theorem four_le_three_sq {a b : ℤ} (h0 : ¬(a = 0 ∧ b = 0)) (hpar : (a + b) % 2 = 0) :
    4 ≤ 3 * a ^ 2 + b ^ 2 := by
  rcases eq_or_ne a 0 with rfl | ha
  · have hb : b ≠ 0 := fun hb => h0 ⟨rfl, hb⟩
    obtain ⟨c, rfl⟩ : ∃ c, b = 2 * c := ⟨b / 2, by omega⟩
    have hc : c ≠ 0 := by rintro rfl; exact hb (by ring)
    have := one_le_sq_int hc
    nlinarith
  · rcases eq_or_ne b 0 with rfl | hb
    · obtain ⟨c, rfl⟩ : ∃ c, a = 2 * c := ⟨a / 2, by omega⟩
      have hc : c ≠ 0 := by rintro rfl; exact ha (by ring)
      have := one_le_sq_int hc
      nlinarith
    · have := one_le_sq_int ha
      have := one_le_sq_int hb
      nlinarith

theorem one_le_sq_add_sq {a b : ℤ} (h0 : ¬(a = 0 ∧ b = 0)) :
    1 ≤ a ^ 2 + b ^ 2 := by
  rcases eq_or_ne a 0 with rfl | ha
  · have hb : b ≠ 0 := fun hb => h0 ⟨rfl, hb⟩
    have := one_le_sq_int hb
    nlinarith
  · have := one_le_sq_int ha
    nlinarith [sq_nonneg b]

theorem three_le_sqrt3c_sq : (3 : ℚ) ≤ sqrt3c ^ 2 := by
  norm_num [sqrt3c]

/-- Any two distinct centers produced by one `fillTriangle` run are at least
one tool diameter apart (the source's √3 constant is slightly above √3, so
the bound is exact). -/
theorem fillTriangle_dist {g : Grid} {level : ℕ} {bbox : Rect} {d px ox oy : ℚ}
    (hd : 0 < d) {p q : Pt}
    (hp : p ∈ fillTriangle g level bbox d px ox oy)
    (hq : q ∈ fillTriangle g level bbox d px ox oy) (hne : p ≠ q) :
    d * d ≤ sqDist p q := by
  rw [mem_fillTriangle hd] at hp hq
  obtain ⟨i, j, _, _, _, _, hpar, _, rfl⟩ := hp
  obtain ⟨i', j', _, _, _, _, hpar', _, rfl⟩ := hq
  set A : ℚ := (i : ℚ) - (i' : ℚ) with hA
  set B : ℚ := (j : ℚ) - (j' : ℚ) with hB
  have h0 : ¬((i : ℤ) - i' = 0 ∧ (j : ℤ) - j' = 0) := by
    rintro ⟨ha, hb⟩
    have hi : i = i' := by omega
    have hj : j = j' := by omega
    subst hi hj
    exact hne rfl
  have hpar2 : (((i : ℤ) - i') + ((j : ℤ) - j')) % 2 = 0 := by omega
  have h4 : (4 : ℚ) ≤ 3 * A ^ 2 + B ^ 2 := by
    have := four_le_three_sq h0 hpar2
    have hcast : ((((i : ℤ) - i') : ℤ) : ℚ) = A ∧ ((((j : ℤ) - j') : ℤ) : ℚ) = B := by
      constructor <;> push_cast <;> ring
    calc (4 : ℚ) ≤ 3 * ((((i : ℤ) - i') : ℤ) : ℚ) ^ 2 + ((((j : ℤ) - j') : ℤ) : ℚ) ^ 2 := by
          exact_mod_cast this
      _ = 3 * A ^ 2 + B ^ 2 := by rw [hcast.1, hcast.2]
  have hsq : sqDist (ox + (i : ℚ) * (d / 2 * sqrt3c), oy + (j : ℚ) * (d / 2))
      (ox + (i' : ℚ) * (d / 2 * sqrt3c), oy + (j' : ℚ) * (d / 2))
      = (d / 2) ^ 2 * (sqrt3c ^ 2 * A ^ 2 + B ^ 2) := by
    unfold sqDist
    simp only [hA, hB]
    ring
  rw [hsq]
  have h3 : (3 : ℚ) ≤ sqrt3c ^ 2 := three_le_sqrt3c_sq
  have hS : (4 : ℚ) ≤ sqrt3c ^ 2 * A ^ 2 + B ^ 2 := by nlinarith [sq_nonneg A]
  have hmul := mul_le_mul_of_nonneg_left hS (sq_nonneg (d / 2))
  linarith

/-- Any two distinct centers produced by one `fillQuad` run are at least one
tool diameter apart. -/
theorem fillQuad_dist {g : Grid} {level : ℕ} {bbox : Rect} {d px ox oy : ℚ}
    (hd : 0 < d) {p q : Pt}
    (hp : p ∈ fillQuad g level bbox d px ox oy)
    (hq : q ∈ fillQuad g level bbox d px ox oy) (hne : p ≠ q) :
    d * d ≤ sqDist p q := by
  rw [mem_fillQuad hd] at hp hq
  obtain ⟨i, j, _, _, _, _, _, rfl⟩ := hp
  obtain ⟨i', j', _, _, _, _, _, rfl⟩ := hq
  set A : ℚ := (i : ℚ) - (i' : ℚ) with hA
  set B : ℚ := (j : ℚ) - (j' : ℚ) with hB
  have h0 : ¬((i : ℤ) - i' = 0 ∧ (j : ℤ) - j' = 0) := by
    rintro ⟨ha, hb⟩
    have hi : i = i' := by omega
    have hj : j = j' := by omega
    subst hi hj
    exact hne rfl
  have h1 : (1 : ℚ) ≤ A ^ 2 + B ^ 2 := by
    have := one_le_sq_add_sq h0
    have hcast : ((((i : ℤ) - i') : ℤ) : ℚ) = A ∧ ((((j : ℤ) - j') : ℤ) : ℚ) = B := by
      constructor <;> push_cast <;> ring
    calc (1 : ℚ) ≤ ((((i : ℤ) - i') : ℤ) : ℚ) ^ 2 + ((((j : ℤ) - j') : ℤ) : ℚ) ^ 2 := by
          exact_mod_cast this
      _ = A ^ 2 + B ^ 2 := by rw [hcast.1, hcast.2]
  have hsq : sqDist (ox + (i : ℚ) * d, oy + (j : ℚ) * d)
      (ox + (i' : ℚ) * d, oy + (j' : ℚ) * d) = d ^ 2 * (A ^ 2 + B ^ 2) := by
    unfold sqDist
    simp only [hA, hB]
    ring
  rw [hsq]
  have hmul := mul_le_mul_of_nonneg_left h1 (sq_nonneg d)
  linarith

/-- Any two distinct centers inside any single trial of the per-component
search are at least one tool diameter apart. -/
theorem trial_dist {g : Grid} {bbox : Rect} {d px : ℚ} {N : ℕ} {t : List Pt}
    (hd : 0 < d) (ht : t ∈ trialsN g bbox d px N) {p q : Pt}
    (hp : p ∈ t) (hq : q ∈ t) (hne : p ≠ q) : d * d ≤ sqDist p q := by
  rcases mem_trialsN.mp ht with ⟨i, j, _, _, h | h⟩
  · subst h; exact fillTriangle_dist hd hp hq hne
  · subst h; exact fillQuad_dist hd hp hq hne

end Png2Stencil


namespace Png2Stencil

theorem foldl_id {α : Type} {β : Type} {f : α → β → α} {a : α} {l : List β}
    (h : ∀ x ∈ l, f a x = a) : l.foldl f a = a := by
  induction l with
  | nil => rfl
  | cons c l ih =>
    rw [List.foldl_cons, h c (List.mem_cons_self c l)]
    exact ih fun x hx => h x (List.mem_cons_of_mem c hx)

theorem getD_ne_of_forall {pix : List ℕ} {v : ℕ} (hv : v ≠ 0)
    (h : ∀ u ∈ pix, u ≠ v) (idx : ℕ) : pix.getD idx 0 ≠ v := by
  rcases lt_or_ge idx pix.length with hlt | hge
  · rw [List.getD_eq_getElem?_getD, List.getElem?_eq_getElem hlt, Option.getD_some]
    exact h _ (List.getElem_mem hlt)
  · rw [List.getD_eq_getElem?_getD, List.getElem?_eq_none hge, Option.getD_none]
    exact fun hc => hv hc.symm

/-- When no cell of the grid holds 255 (unclaimed foreground), the scan loop
of `main` never fires: no component is discovered, no placement produced,
and the pixels stay untouched. -/
theorem mainScan_no_foreground {g : Grid} (h : ∀ u ∈ g.pix, u ≠ 255) (d px : ℚ) :
    mainScan g d px = ⟨g.pix, [], []⟩ := by
  unfold mainScan
  apply foldl_id
  intro curX _
  apply foldl_id
  intro curY _
  unfold scanCell
  rw [if_pos]
  exact getD_ne_of_forall (by norm_num) h _

theorem makeBase_length (img : Img) (bk : Color) (n : ℕ) :
    (makeBase img bk n).pix.length = img.dx * n * (img.dy * n) := by
  unfold makeBase
  rw [List.length_map, List.length_range]

theorem makeBase_getD {img : Img} {bk : Color} {n X Y : ℕ}
    (hX : X < img.dx * n) (hY : Y < img.dy * n) :
    (makeBase img bk n).pix.getD (Y * (img.dx * n) + X) 0 =
      if rgbEq (img.colorAt (img.minX + (X / n : ℕ)) (img.minY + (Y / n : ℕ))) bk
      then 0 else 255 := by
  have hs : 0 < img.dx * n := by omega
  have hidx : Y * (img.dx * n) + X < img.dx * n * (img.dy * n) := by
    have h2 : (Y + 1) * (img.dx * n) ≤ img.dy * n * (img.dx * n) :=
      Nat.mul_le_mul_right _ (by omega)
    have h3 : (Y + 1) * (img.dx * n) = Y * (img.dx * n) + img.dx * n := by ring
    have h4 : img.dx * n * (img.dy * n) = img.dy * n * (img.dx * n) := by ring
    omega
  unfold makeBase
  rw [List.getD_eq_getElem?_getD, List.getElem?_map, List.getElem?_range hidx]
  have hmod : (Y * (img.dx * n) + X) % (img.dx * n) = X := by
    rw [Nat.mul_comm Y (img.dx * n), Nat.mul_add_mod, Nat.mod_eq_of_lt hX]
  have hdiv : (Y * (img.dx * n) + X) / (img.dx * n) = Y := by
    rw [Nat.mul_comm Y (img.dx * n), Nat.mul_add_div hs, Nat.div_eq_of_lt hX, Nat.add_zero]
  rw [Option.map_some', Option.getD_some, hmod, hdiv]

/-- If every source pixel inside the image bounds matches the background
color on the three color channels, the rasterized grid is all zeros. -/
theorem makeBase_all_background {img : Img} {bk : Color} {n : ℕ} (hn : 0 < n)
    (hbk : ∀ ix iy : ℤ, img.minX ≤ ix → ix < img.minX + img.dx →
      img.minY ≤ iy → iy < img.minY + img.dy → rgbEq (img.colorAt ix iy) bk = true) :
    ∀ u ∈ (makeBase img bk n).pix, u = 0 := by
  intro u hu
  unfold makeBase at hu
  rw [List.mem_map] at hu
  obtain ⟨i, hi, rfl⟩ := hu
  rw [List.mem_range] at hi
  have hs : 0 < img.dx * n := by
    rcases Nat.eq_zero_or_pos (img.dx * n) with h0 | h0
    · rw [h0, Nat.zero_mul] at hi; omega
    · exact h0
  have hxb : i % (img.dx * n) / n < img.dx := by
    rw [Nat.div_lt_iff_lt_mul hn]
    exact Nat.mod_lt i hs
  have hyb : i / (img.dx * n) / n < img.dy := by
    rw [Nat.div_lt_iff_lt_mul hn, Nat.div_lt_iff_lt_mul hs]
    calc i < img.dx * n * (img.dy * n) := hi
      _ = img.dy * n * (img.dx * n) := by ring
  have hb1 : img.minX ≤ img.minX + ((i % (img.dx * n)) / n : ℕ) :=
    le_add_of_nonneg_right (Int.natCast_nonneg _)
  have hb2 : img.minX + ((i % (img.dx * n)) / n : ℕ) < img.minX + img.dx :=
    add_lt_add_left (by exact_mod_cast hxb) _
  have hb3 : img.minY ≤ img.minY + ((i / (img.dx * n)) / n : ℕ) :=
    le_add_of_nonneg_right (Int.natCast_nonneg _)
  have hb4 : img.minY + ((i / (img.dx * n)) / n : ℕ) < img.minY + img.dy :=
    add_lt_add_left (by exact_mod_cast hyb) _
  rw [if_pos (hbk _ _ hb1 hb2 hb3 hb4)]

end Png2Stencil
namespace Png2Stencil

/-! ### Concrete run inputs -/

/-- A 1×3 source image: rows 0 and 2 black (foreground against a white
background), row 1 white.  Its two foreground cells are separate
4-connected components. -/
def img31 : Img := ⟨0, 0, 1, 3, fun _ iy => if iy = 1 then whiteC else blackC⟩

/-- A 1×1 source image consisting of a single black (foreground) pixel. -/
def img11 : Img := ⟨0, 0, 1, 1, fun _ _ => blackC⟩

/-- A 1×1 source image that is entirely white (all background). -/
def imgW : Img := ⟨0, 0, 1, 1, fun _ _ => whiteC⟩

/-! ### Claim theorems -/

/-- Claim C1, counterexample: a full run (rasterize a 1×3 image with two
one-pixel components, scan, search with the source's `shiftN = 32`,
`toolDiameter = 1`, `pxSize = 1`, `n = 1`) produces the final placement
list `[(1/2,1/2), (1/2,1), (1/2,2)]`; its first two placements come from
different components and their squared center distance is `1/4 < 1 =
toolDiameter²`, violating aggregate disjointness. -/
theorem run_close_pair_counterexample :
    (mainScan (makeBase img31 whiteC 1) 1 1).res
        = [(1/2, 1/2), (1/2, 1), (1/2, 2)] ∧
    ((1/2 : ℚ), (1/2 : ℚ)) ≠ ((1/2 : ℚ), (1 : ℚ)) ∧
    sqDist (1/2, 1/2) (1/2, 1) < 1 * 1 := by decide

/-- Claim C1 (amended): distinct placements within a SINGLE component's
winning list are at least one tool diameter apart (squared distance at
least `d²`); the aggregated list across components does not satisfy this,
as the counterexample shows. -/
theorem searchBest_pairwise_diameter (g : Grid) (bbox : Rect) (d px : ℚ)
    (hd : 0 < d) :
    ∀ p ∈ searchBest g bbox d px, ∀ q ∈ searchBest g bbox d px,
      p ≠ q → d * d ≤ sqDist p q := by
  intro p hp q hq hne
  unfold searchBest bestOf at hp hq
  rcases bestGo_mem [] (trialsN g bbox d px 32) with heq | hmem
  · rw [heq] at hp; cases hp
  · exact trial_dist hd hmem hp hq hne

/-- Witness for the amended C1 theorem: the two placements of one
component's winning list on the 1×3 grid are at least a diameter apart. -/
theorem searchBest_pairwise_diameter_witness :
    ((1 / 2 : ℚ), (1 : ℚ)) ∈ searchBest ⟨1, 3, [255, 0, 255]⟩ ⟨0, 2, 0, 2⟩ 1 1 ∧
    ((1 / 2 : ℚ), (2 : ℚ)) ∈ searchBest ⟨1, 3, [255, 0, 255]⟩ ⟨0, 2, 0, 2⟩ 1 1 ∧
    (1 : ℚ) * 1 ≤ sqDist (1 / 2, 1) (1 / 2, 2) :=
  have h1 : ((1 / 2 : ℚ), (1 : ℚ)) ∈ searchBest ⟨1, 3, [255, 0, 255]⟩ ⟨0, 2, 0, 2⟩ 1 1 := by
    decide
  have h2 : ((1 / 2 : ℚ), (2 : ℚ)) ∈ searchBest ⟨1, 3, [255, 0, 255]⟩ ⟨0, 2, 0, 2⟩ 1 1 := by
    decide
  ⟨h1, h2, searchBest_pairwise_diameter ⟨1, 3, [255, 0, 255]⟩ ⟨0, 2, 0, 2⟩ 1 1
    (by norm_num) _ h1 _ h2 (by decide)⟩

/-- Claim C2, counterexample: on a 3×3 grid whose cell `(1,2)` does not
carry the label, `checkCircle` at center `(1,1)`, radius 1, pixel size 1
returns `false` (its corner-anchored sample point for cell `(1,2)` lies in
the circle), while the spec's cell-center reading returns `true` (the
centers within the bounding square at distance ≤ 1 all carry the label).
-/
theorem checkCircle_center_semantics_counterexample :
    checkCircle ⟨3, 3, [1, 1, 1, 1, 1, 1, 1, 0, 1]⟩ 1 1 1 1 1 = false ∧
    checkCircleSpec ⟨3, 3, [1, 1, 1, 1, 1, 1, 1, 0, 1]⟩ 1 1 1 1 1 = true := by
  decide

/-- Claim C2 (amended): `checkCircle` returns true iff the bounding square
lies within the physical image bounds AND every cell of the rectangle
`x0..x1 × y0..y1` (with `x0 = goInt((x-r)/px)` etc.) whose SAMPLE POINT
`(x-r, y-r) + ((cx-x0)·px, (cy-y0)·px)` — the bounding-square corner
offset by cell steps, not the cell center — lies within distance `r` of
the center carries `level`. -/
theorem checkCircle_sample_characterization (g : Grid) (level : ℕ) (px x y r : ℚ) :
    checkCircle g level px x y r = true ↔
      (r ≤ x ∧ x ≤ g.w * px - r ∧ r ≤ y ∧ y ≤ g.h * px - r) ∧
      ∀ cy cx : ℤ,
        goInt ((y - r) / px) ≤ cy → cy ≤ goInt ((y + r) / px) →
        goInt ((x - r) / px) ≤ cx → cx ≤ goInt ((x + r) / px) →
        inside x y r ((x - r) + ((cx - goInt ((x - r) / px) : ℤ) : ℚ) * px)
          ((y - r) + ((cy - goInt ((y - r) / px) : ℤ) : ℚ) * px) = true →
        pixAt g (cy * (g.w : ℤ) + cx) = level := by
  simp only [checkCircle]
  split_ifs with hguard
  · constructor
    · intro h; cases h
    · rintro ⟨⟨h1, h2, h3, h4⟩, -⟩
      rcases hguard with h | h | h | h <;> linarith
  · push_neg at hguard
    obtain ⟨h1, h2, h3, h4⟩ := hguard
    simp only [List.all_eq_true, mem_intRange, and_imp, Bool.or_eq_true,
      Bool.not_eq_true', decide_eq_true_eq]
    push_cast
    constructor
    · intro hall
      refine ⟨⟨h1, h2, h3, h4⟩, fun cy cx hcy1 hcy2 hcx1 hcx2 hin => ?_⟩
      rcases hall cy hcy1 hcy2 cx hcx1 hcx2 with hfalse | hlevel
      · simp [hfalse] at hin
      · exact hlevel
    · rintro ⟨-, hall⟩ cy hcy1 hcy2 cx hcx1 hcx2
      rw [or_iff_not_imp_left]
      intro hnf
      exact hall cy cx hcy1 hcy2 hcx1 hcx2 (by simpa using hnf)

/-- Claim C3 (code bug): a run on a single isolated foreground pixel
discovers exactly one component (one bounding box is recorded) yet leaves
the cell at value 255 (`Unclaimed-Foreground`) — `floodFill` never writes
its starting pixel when it has no foreground neighbour, so the cell is
never relabeled to 254 (`Claimed`), contradicting the claim and
`floodFill`'s own doc comment. -/
theorem isolated_pixel_never_claimed :
    mainScan (makeBase img11 whiteC 1) 2 1 = ⟨[255], [⟨0, 0, 0, 0⟩], []⟩ := by
  decide

/-- Claim C4, counterexample: with `toolDiameter = 4` the whole-image
variant tries the offset `(6, 0)` (`i·d/2` at `i = 3`), which is not among
the spec's `shiftN × shiftN` offsets `i·d/shiftN` for `shiftN = 4`
(those are `{0, 1, 2, 3}`). -/
theorem offsets_whole_counterexample :
    ((6 : ℚ), (0 : ℚ)) ∈ offsetsWhole 4 ∧ ((6 : ℚ), (0 : ℚ)) ∉ offsetsSpec 4 4 := by
  decide

/-- Claim C4 (amended): the component variant's offsets are exactly the
spec's `32 × 32` grid with step `d/32`; the whole-image variant's offsets
are a `4 × 4` grid with step `d/2` — the spec formula evaluated at `2d`
instead of `d`.  (Both variants evaluate `fillTriangle` and then `fillQuad`
at every offset, as the definition of `trialsN` records.) -/
theorem offsets_characterization (d : ℚ) :
    offsetsComponent d = offsetsSpec 32 d ∧ offsetsWhole d = offsetsSpec 4 (2 * d) := by
  constructor
  · unfold offsetsComponent offsetsSpec
    congr 1
    funext i
    congr 1
    funext j
    simp only [Prod.mk.injEq]
    constructor <;> push_cast <;> ring
  · unfold offsetsWhole offsetsSpec
    congr 1
    funext i
    congr 1
    funext j
    simp only [Prod.mk.injEq]
    constructor <;> push_cast <;> ring

/-- Claim C5: membership characterization of the triangular-family
enumeration: exactly the centers `x = ox + i·(d/2·c)`, `y = oy + j·(d/2)`
for naturals `i, j` (where `c = 1.73205080757` is the source's literal for
√3), with the center inside the image extent and the grown bounding-box
window, every pair with `i + j` odd skipped, and the circle-fit check
passing; no other candidates are produced. -/
theorem fillTriangle_lattice_characterization {g : Grid} {level : ℕ}
    {bbox : Rect} {d px ox oy : ℚ} (hd : 0 < d) {p : Pt} :
    p ∈ fillTriangle g level bbox d px ox oy ↔
      ∃ i j : ℕ,
        ox + i * (d / 2 * sqrt3c) < g.w * px ∧
        ¬(ox + i * (d / 2 * sqrt3c) < (bbox.minX - 1) * px ∨
            (bbox.maxX + 1) * px ≤ ox + i * (d / 2 * sqrt3c)) ∧
        oy + j * (d / 2) < g.h * px ∧
        ¬(oy + j * (d / 2) < (bbox.minY - 1) * px ∨
            (bbox.maxY + 1) * px ≤ oy + j * (d / 2)) ∧
        (i + j) % 2 ≠ 1 ∧
        checkCircle g level px (ox + i * (d / 2 * sqrt3c)) (oy + j * (d / 2)) (d / 2) = true ∧
        p = (ox + i * (d / 2 * sqrt3c), oy + j * (d / 2)) :=
  mem_fillTriangle hd

/-- Witness for the C5 theorem: the lattice center `(1/2, 1/2)` (at
`i = j = 0` with offset `(1/2, 1/2)`) is produced on a 1×1 grid. -/
theorem fillTriangle_lattice_characterization_witness :
    ((1 / 2 : ℚ), (1 / 2 : ℚ)) ∈ fillTriangle ⟨1, 1, [255]⟩ 1 ⟨0, 0, 0, 0⟩ 1 1 (1 / 2) (1 / 2) :=
  (fillTriangle_lattice_characterization (by norm_num)).mpr
    ⟨0, 0, by decide, by decide, by decide, by decide, by decide, by decide, by decide⟩

/-- Claim C6: the kept list of the per-component search is literally one of
the trial lists (at index `k` in enumeration order: offsets row-major with
`ox` outer, `fillTriangle` before `fillQuad` at each offset, as `trialsN`
records), every strictly earlier trial is strictly shorter (first-found
wins ties), and no trial is longer (maximum cardinality). -/
theorem searchBest_first_of_maximal (g : Grid) (bbox : Rect) (d px : ℚ) :
    ∃ k, ∃ hk : k < (trialsN g bbox d px 32).length,
      searchBest g bbox d px = (trialsN g bbox d px 32).get ⟨k, hk⟩ ∧
      (∀ m, ∀ hm : m < (trialsN g bbox d px 32).length, m < k →
        ((trialsN g bbox d px 32).get ⟨m, hm⟩).length < (searchBest g bbox d px).length) ∧
      ∀ t ∈ trialsN g bbox d px 32, t.length ≤ (searchBest g bbox d px).length := by
  have hne : ∃ t, t ∈ trialsN g bbox d px 32 :=
    ⟨_, mem_trialsN.mpr ⟨0, 0, by norm_num, by norm_num, Or.inl rfl⟩⟩
  obtain ⟨t0, ht0⟩ := hne
  have hpos : 0 < (trialsN g bbox d px 32).length := List.length_pos_of_mem ht0
  unfold searchBest bestOf
  rcases bestGo_spec (trialsN g bbox d px 32) [] with ⟨heq, hall⟩ |
    ⟨k, hk, heq, -, hbefore, hallk⟩
  · refine ⟨0, hpos, ?_, ?_, ?_⟩
    · rw [heq]
      have h0 : ((trialsN g bbox d px 32).get ⟨0, hpos⟩).length = 0 :=
        Nat.le_zero.mp (by simpa using hall _ (List.get_mem _ 0 hpos))
      exact (List.length_eq_zero.mp h0).symm
    · intro m hm hm0; omega
    · intro t ht; rw [heq]; simpa using hall t ht
  · refine ⟨k, hk, heq, ?_, ?_⟩
    · intro m hm hmk; rw [heq]; exact hbefore m hm hmk
    · intro t ht; rw [heq]; exact hallk t ht

/-- Claim C7: the rasterizer produces a grid of dimensions exactly
`dx·n × dy·n`, and the cell at `(X, Y)` is 0 (background) exactly when the
source color at `(minX + X/n, minY + Y/n)` (floor division) equals the
background color on the three color channels, else 255 (unclaimed
foreground). -/
theorem makeBase_rasterizer_spec (img : Img) (bk : Color) {n X Y : ℕ}
    (_hn : 0 < n) (hX : X < img.dx * n) (hY : Y < img.dy * n) :
    (makeBase img bk n).w = img.dx * n ∧
    (makeBase img bk n).h = img.dy * n ∧
    (makeBase img bk n).pix.length = img.dx * n * (img.dy * n) ∧
    (makeBase img bk n).pix.getD (Y * (img.dx * n) + X) 0 =
      (if rgbEq (img.colorAt (img.minX + (X / n : ℕ)) (img.minY + (Y / n : ℕ))) bk
       then 0 else 255) :=
  ⟨rfl, rfl, makeBase_length img bk n, makeBase_getD hX hY⟩

/-- Witness for the C7 theorem on the all-white 1×1 image. -/
theorem makeBase_rasterizer_spec_witness :
    (makeBase imgW whiteC 1).w = 1 * 1 ∧
    (makeBase imgW whiteC 1).h = 1 * 1 ∧
    (makeBase imgW whiteC 1).pix.length = 1 * 1 * (1 * 1) ∧
    (makeBase imgW whiteC 1).pix.getD (0 * (1 * 1) + 0) 0 =
      (if rgbEq (imgW.colorAt (imgW.minX + ((0 / 1 : ℕ))) (imgW.minY + ((0 / 1 : ℕ)))) whiteC
       then 0 else 255) :=
  makeBase_rasterizer_spec imgW whiteC (by decide) (by decide) (by decide)

/-- Claim C8, counterexample: on a 1×1 foreground grid with `d = px = 1`,
the search with `shiftN = 3` finds no placement while `shiftN = 2` finds
one: increasing the offset resolution from 2 to 3 DECREASES the best
count (the offset `(1/2, 1/2)`, the only one whose lattice point passes
the bounds test, is a multiple of `d/2` but not of `d/3`). -/
theorem bestLen_not_monotone_counterexample :
    (2 : ℕ) < 3 ∧
    (bestOf (trialsN ⟨1, 1, [255]⟩ ⟨0, 0, 0, 0⟩ 1 1 3)).length <
      (bestOf (trialsN ⟨1, 1, [255]⟩ ⟨0, 0, 0, 0⟩ 1 1 2)).length := by
  decide

/-- Claim C8 (amended): the best placement count is monotone when the
coarser offset grid divides the finer one (`shiftN₂ = shiftN₁·k`), because
then every coarse offset `i·d/N = (i·k)·d/(N·k)` is also tried at the
finer resolution; for non-divisible resolutions the offset sets are not
nested and the count can drop, as the counterexample shows. -/
theorem bestLen_monotone_of_dvd {g : Grid} {bbox : Rect} {d px : ℚ} {N k : ℕ}
    (hN : 0 < N) (hk : 0 < k) :
    (bestOf (trialsN g bbox d px N)).length ≤
      (bestOf (trialsN g bbox d px (N * k))).length := by
  unfold bestOf
  rcases bestGo_mem [] (trialsN g bbox d px N) with heq | hmem
  · rw [heq]
    exact Nat.zero_le _
  · rcases mem_trialsN.mp hmem with ⟨i, j, hi, hj, hcase⟩
    have hoff : ∀ m : ℕ, (m : ℚ) * (d / N) = ((m * k : ℕ) : ℚ) * (d / (N * k : ℕ)) := by
      intro m
      have hN0 : ((N : ℚ)) ≠ 0 := by positivity
      have hk0 : ((k : ℚ)) ≠ 0 := by positivity
      push_cast
      field_simp
      ring
    have hmem2 : bestGo [] (trialsN g bbox d px N) ∈ trialsN g bbox d px (N * k) := by
      apply mem_trialsN.mpr
      refine ⟨i * k, j * k, (Nat.mul_lt_mul_right hk).mpr hi, (Nat.mul_lt_mul_right hk).mpr hj, ?_⟩
      rcases hcase with hcase | hcase
      · left; rw [hcase, hoff i, hoff j]
      · right; rw [hcase, hoff i, hoff j]
    exact length_le_bestGo [] hmem2

/-- Witness for the amended C8 theorem: resolution 2 versus 4 on the 1×1
foreground grid. -/
theorem bestLen_monotone_of_dvd_witness :
    (bestOf (trialsN ⟨1, 1, [255]⟩ ⟨0, 0, 0, 0⟩ 1 1 2)).length ≤
      (bestOf (trialsN ⟨1, 1, [255]⟩ ⟨0, 0, 0, 0⟩ 1 1 (2 * 2))).length :=
  bestLen_monotone_of_dvd (by norm_num) (by norm_num)

/-- Claim C9: a run on an image whose every pixel matches the background
color discovers zero components and produces an empty placement list (the
embedded run is total, so no error arises). -/
theorem all_background_empty_run {img : Img} {bk : Color} {n : ℕ} (hn : 0 < n)
    (hbk : ∀ ix iy : ℤ, img.minX ≤ ix → ix < img.minX + img.dx →
      img.minY ≤ iy → iy < img.minY + img.dy → rgbEq (img.colorAt ix iy) bk = true)
    (d px : ℚ) :
    (mainScan (makeBase img bk n) d px).comps = [] ∧
    (mainScan (makeBase img bk n) d px).res = [] := by
  have h0 := makeBase_all_background hn hbk
  have hrun := @mainScan_no_foreground (makeBase img bk n)
    (fun u hu => by rw [h0 u hu]; norm_num) d px
  rw [hrun]
  exact ⟨rfl, rfl⟩

/-- Witness for the C9 theorem on the all-white 1×1 image. -/
theorem all_background_empty_run_witness :
    (mainScan (makeBase imgW whiteC 1) 1 1).comps = [] ∧
    (mainScan (makeBase imgW whiteC 1) 1 1).res = [] :=
  @all_background_empty_run imgW whiteC 1 (by norm_num)
    (fun _ _ _ _ _ _ => rfl) 1 1

/-- Claim C10, counterexample: on a 2×2 grid with `px = 1`, the call
`checkCircle`-scan at center `(1, 1)`, radius 1 passes the initial bounds
test (`x+r = width` exactly), yet reads index 4 — and also 5 — while
`len(Pix) = 4`: an out-of-bounds read (a panic in Go). -/
theorem checkCircleReads_oob_counterexample :
    (4 : ℤ) ∈ checkCircleReads ⟨2, 2, [1, 1, 1, 1]⟩ 1 1 1 1 ∧
    ¬((4 : ℤ) < (((⟨2, 2, [1, 1, 1, 1]⟩ : Grid).pix.length : ℕ) : ℤ)) := by
  decide

/-- Claim C10 (amended): when the circle's bounding square lies STRICTLY
inside the image (`x+r < width` and `y+r < height`; at equality the scan
overruns, as the counterexample shows), every index the scan reads is
within the pixel array bounds. -/
theorem checkCircleReads_inBounds {g : Grid} {px x y r : ℚ}
    (hpx : 0 < px) (hr : 0 ≤ r) (hx1 : r ≤ x) (hx2 : x + r < g.w * px)
    (hy1 : r ≤ y) (hy2 : y + r < g.h * px)
    (hlen : g.pix.length = g.w * g.h) :
    ∀ idx ∈ checkCircleReads g px x y r, 0 ≤ idx ∧ idx < (g.pix.length : ℤ) := by
  intro idx hidx
  unfold checkCircleReads at hidx
  rw [if_neg (by rintro (h | h | h | h) <;> linarith)] at hidx
  rw [List.mem_flatMap] at hidx
  obtain ⟨cy, hcy, hidx⟩ := hidx
  rw [List.mem_filterMap] at hidx
  obtain ⟨cx, hcx, hsome⟩ := hidx
  rw [mem_intRange] at hcy hcx
  split_ifs at hsome with hin
  · rw [Option.some_inj] at hsome
    subst hsome
    have hgx0 : goInt ((x - r) / px) = ⌊(x - r) / px⌋ := by
      rw [goInt, if_neg (not_lt.mpr (div_nonneg (by linarith) hpx.le))]
    have hgx1 : goInt ((x + r) / px) = ⌊(x + r) / px⌋ := by
      rw [goInt, if_neg (not_lt.mpr (div_nonneg (by linarith) hpx.le))]
    have hgy0 : goInt ((y - r) / px) = ⌊(y - r) / px⌋ := by
      rw [goInt, if_neg (not_lt.mpr (div_nonneg (by linarith) hpx.le))]
    have hgy1 : goInt ((y + r) / px) = ⌊(y + r) / px⌋ := by
      rw [goInt, if_neg (not_lt.mpr (div_nonneg (by linarith) hpx.le))]
    have hcx0 : 0 ≤ cx := by
      refine le_trans ?_ hcx.1
      rw [hgx0]
      exact Int.floor_nonneg.mpr (div_nonneg (by linarith) hpx.le)
    have hcy0 : 0 ≤ cy := by
      refine le_trans ?_ hcy.1
      rw [hgy0]
      exact Int.floor_nonneg.mpr (div_nonneg (by linarith) hpx.le)
    have hcxW : cx < (g.w : ℤ) := by
      refine lt_of_le_of_lt hcx.2 ?_
      rw [hgx1, Int.floor_lt]
      rw [div_lt_iff₀ hpx]
      push_cast
      linarith
    have hcyH : cy < (g.h : ℤ) := by
      refine lt_of_le_of_lt hcy.2 ?_
      rw [hgy1, Int.floor_lt]
      rw [div_lt_iff₀ hpx]
      push_cast
      linarith
    constructor
    · exact add_nonneg (mul_nonneg hcy0 (Int.natCast_nonneg _)) hcx0
    · rw [hlen]
      push_cast
      have hmul : cy * (g.w : ℤ) ≤ ((g.h : ℤ) - 1) * (g.w : ℤ) :=
        mul_le_mul_of_nonneg_right (by omega) (Int.natCast_nonneg _)
      nlinarith

/-- Witness for the amended C10 theorem: a strictly interior circle on the
2×2 grid reads only index 3, which is within the 4-element pixel array. -/
theorem checkCircleReads_inBounds_witness :
    (0 : ℤ) ≤ 3 ∧ (3 : ℤ) < (((⟨2, 2, [1, 1, 1, 1]⟩ : Grid).pix.length : ℕ) : ℤ) :=
  @checkCircleReads_inBounds ⟨2, 2, [1, 1, 1, 1]⟩ 1 1 1 (9 / 10) (by norm_num)
    (by norm_num) (by norm_num) (by norm_num) (by norm_num) (by norm_num)
    (by norm_num) 3 (by decide)

end Png2Stencil
